import Mathlib

/-!
Verification of the incremental RSS item parser (`src/rss_parser.rs`).

The parser engine is embedded shallowly: the external XML tokenizer is
modelled as a list of lexical events, and one invocation of
`RssParser::next` is the event loop `nextGo`, which threads the nesting
stack and the record in progress and returns the produced record together
with the unconsumed suffix of the event stream.
-/

/-- ASCII lowercasing of one character, modelling `char::to_lowercase`
on the ASCII tag names the parser compares. -/
def lowerChar (c : Char) : Char :=
  if 65 ≤ c.toNat ∧ c.toNat ≤ 90 then Char.ofNat (c.toNat + 32) else c

/-- Lowercasing of a tag name, modelling `str::to_lowercase`. -/
def toLowerStr (s : String) : String :=
  ⟨s.data.map lowerChar⟩

/-- One transient XML element: tag (lowercased), last text value,
last CDATA value.  Models `struct XmlNode`. -/
structure XmlNode where
  tag : String
  value : Option String
  cdata : Option String
deriving DecidableEq

/-- A lexical event produced by the external tokenizer, as consumed by
the `match event` in `RssParser::next`.  `decodeError` stands for an
`Err` returned by `read_event_into_async` (which exits the `while let
Ok(event)` loop), `other` for every event the code ignores with
`_ => {}`. -/
inductive Event where
  | start (name : String)
  | endTag (name : String)
  | text (content : Option String)
  | cdata (content : Option String)
  | eof
  | decodeError
  | other
deriving DecidableEq

/-- The record capability: models `trait GradualRssItem` with
`init` and `populate`. -/
structure GradualRssItem (T : Type) where
  init : T
  populate : T → XmlNode → T

/-- The event loop of `RssParser::next`, lines 48-87 of the source:
one step per event, threading the nesting stack (head = top) and the
record in progress, returning the result and the unconsumed events.
An empty event list behaves like `Event::Eof` (the real reader keeps
returning `Eof` once the source is exhausted). -/
def nextGo {T : Type} (G : GradualRssItem T) :
    List Event → List XmlNode → Option T → Option T × List Event
  | [], _, processing => (processing, [])
  | Event.start name :: rest, stack, processing =>
      let tag := toLowerStr name
      nextGo G rest (XmlNode.mk tag none none :: stack)
        (if tag = toLowerStr ("item") then some G.init else processing)
  | Event.endTag name :: rest, stack, processing =>
      if toLowerStr name = toLowerStr ("item") then (processing, rest)
      else
        match stack, processing with
        | node :: stack', some rawItem => nextGo G rest stack' (some (G.populate rawItem node))
        | node :: stack', none => nextGo G rest stack' none
        | [], processing => nextGo G rest [] processing
  | Event.cdata content :: rest, stack, processing =>
      match stack with
      | [] => nextGo G rest [] processing
      | node :: stack' => nextGo G rest ({ node with cdata := content } :: stack') processing
  | Event.text content :: rest, stack, processing =>
      match stack with
      | [] => nextGo G rest [] processing
      | node :: stack' => nextGo G rest ({ node with value := content } :: stack') processing
  | Event.eof :: rest, _, processing => (processing, rest)
  | Event.decodeError :: rest, _, processing => (processing, rest)
  | Event.other :: rest, stack, processing => nextGo G rest stack processing

/-- Parser state: the not-yet-consumed part of the tokenizer's event
stream (models the `reader` field of `struct RssParser`). -/
structure RssParser where
  events : List Event
deriving DecidableEq

/-- One invocation of `RssParser::next`: a fresh local stack and no
record in progress, then the event loop. -/
def RssParser.next {T : Type} (G : GradualRssItem T) (p : RssParser) :
    Option T × RssParser :=
  let r := nextGo G p.events [] none
  (r.1, ⟨r.2⟩)

/-- A record type that just collects every node handed to `populate`,
in order.  Mirrors what the capability interface observes. -/
def collectG : GradualRssItem (List XmlNode) :=
  GradualRssItem.mk [] (fun l n => l ++ [n])

/-- The model of `TestRssItem` from the repository's test module. -/
structure TestRssItem where
  title : Option String
  description : Option String
  link : Option String
  pub_date : Option String
deriving DecidableEq

/-- The test module's `GradualRssItem` implementation for
`TestRssItem`: each recognised tag keeps `node.value.or(node.cdata)`. -/
def testItemG : GradualRssItem TestRssItem :=
  GradualRssItem.mk (TestRssItem.mk none none none none) (fun r node =>
    if node.tag = toLowerStr ("title") then { r with title := node.value.or node.cdata }
    else if node.tag = toLowerStr ("description") then { r with description := node.value.or node.cdata }
    else if node.tag = toLowerStr ("link") then { r with link := node.value.or node.cdata }
    else if node.tag = toLowerStr ("pubDate") then { r with pub_date := node.value.or node.cdata }
    else r)

/-- The sequence adapter, fuelled: repeatedly call `RssParser.next`
until the first `none`. -/
def parseAllF {T : Type} (G : GradualRssItem T) : Nat → RssParser → List T
  | 0, _ => []
  | Nat.succ fuel, p =>
      match RssParser.next G p with
      | (none, _) => []
      | (some t, p2) => t :: parseAllF G fuel p2

/-- The lazy sequence of records produced by the parser (the `Stream`
implementation / `collect`): repeated calls of `RssParser.next` until
the first `none`.  Each successful call consumes at least one event, so
`events.length + 1` units of fuel always reach the terminating `none`. -/
def parseAll {T : Type} (G : GradualRssItem T) (p : RssParser) : List T :=
  parseAllF G (p.events.length + 1) p

/-- The event loop again, instrumented with a ghost log: the control
flow, the produced record and the unconsumed events are identical to
`nextGo` (proved in `nextGoL_agree`); in addition the log records, in
order, every node passed to `populate` — also nodes folded into a
record that a later nested item start discards. -/
def nextGoL {T : Type} (G : GradualRssItem T) :
    List Event → List XmlNode → Option T → List XmlNode →
    Option T × List Event × List XmlNode
  | [], _, processing, log => (processing, [], log)
  | Event.start name :: rest, stack, processing, log =>
      let tag := toLowerStr name
      nextGoL G rest (XmlNode.mk tag none none :: stack)
        (if tag = toLowerStr ("item") then some G.init else processing) log
  | Event.endTag name :: rest, stack, processing, log =>
      if toLowerStr name = toLowerStr ("item") then (processing, rest, log)
      else
        match stack, processing with
        | node :: stack', some rawItem =>
            nextGoL G rest stack' (some (G.populate rawItem node)) (log ++ [node])
        | node :: stack', none => nextGoL G rest stack' none log
        | [], processing => nextGoL G rest [] processing log
  | Event.cdata content :: rest, stack, processing, log =>
      match stack with
      | [] => nextGoL G rest [] processing log
      | node :: stack' => nextGoL G rest ({ node with cdata := content } :: stack') processing log
  | Event.text content :: rest, stack, processing, log =>
      match stack with
      | [] => nextGoL G rest [] processing log
      | node :: stack' => nextGoL G rest ({ node with value := content } :: stack') processing log
  | Event.eof :: rest, _, processing, log => (processing, rest, log)
  | Event.decodeError :: rest, _, processing, log => (processing, rest, log)
  | Event.other :: rest, stack, processing, log => nextGoL G rest stack processing log

/-- Fuelled repetition of the logged loop: the records of the whole
sequence together with the accumulated log of all populate calls. -/
def parseAllLF {T : Type} (G : GradualRssItem T) :
    Nat → List Event → List XmlNode → List T × List XmlNode
  | 0, _, log => ([], log)
  | Nat.succ fuel, evs, log =>
      match nextGoL G evs [] none log with
      | (none, _, log2) => ([], log2)
      | (some t, rest, log2) =>
          let r := parseAllLF G fuel rest log2
          (t :: r.1, r.2)

/-- `parseAll` with the ghost log: the record sequence (identical to
`parseAll`, see `parseAllL_records`) plus every node passed to
`populate` while producing it. -/
def parseAllL {T : Type} (G : GradualRssItem T) (p : RssParser) :
    List T × List XmlNode :=
  parseAllLF G (p.events.length + 1) p.events []

/-!  A well-formed input document is modelled as a forest of XML trees;
its serialisation into lexical events is what the external tokenizer
would deliver for it. -/

mutual
inductive Xml where
  | elem (tag : String) (children : XmlForest)
  | txt (s : String)
  | cdat (s : String)
inductive XmlForest where
  | nil
  | cons (t : Xml) (ts : XmlForest)
end

mutual
def eventsOf : Xml → List Event
  | Xml.elem tag cs => Event.start tag :: (eventsOfForest cs ++ [Event.endTag tag])
  | Xml.txt s => [Event.text (some s)]
  | Xml.cdat s => [Event.cdata (some s)]
def eventsOfForest : XmlForest → List Event
  | XmlForest.nil => []
  | XmlForest.cons t ts => eventsOf t ++ eventsOfForest ts
end

mutual
def hasItem : Xml → Bool
  | Xml.elem tag cs => (toLowerStr tag == toLowerStr ("item")) || hasItemForest cs
  | Xml.txt _ => false
  | Xml.cdat _ => false
def hasItemForest : XmlForest → Bool
  | XmlForest.nil => false
  | XmlForest.cons t ts => hasItem t || hasItemForest ts
end

mutual
def okTree : Xml → Bool
  | Xml.elem tag cs =>
      if toLowerStr tag == toLowerStr ("item") then !hasItemForest cs else okForest cs
  | Xml.txt _ => true
  | Xml.cdat _ => true
def okForest : XmlForest → Bool
  | XmlForest.nil => true
  | XmlForest.cons t ts => okTree t && okForest ts
end

mutual
def countItems : Xml → Nat
  | Xml.elem tag cs =>
      (if toLowerStr tag == toLowerStr ("item") then 1 else 0) + countItemsForest cs
  | Xml.txt _ => 0
  | Xml.cdat _ => 0
def countItemsForest : XmlForest → Nat
  | XmlForest.nil => 0
  | XmlForest.cons t ts => countItems t + countItemsForest ts
end

mutual
def itemsOf : Xml → List XmlForest
  | Xml.elem tag cs =>
      if toLowerStr tag == toLowerStr ("item") then [cs] else itemsOfForest cs
  | Xml.txt _ => []
  | Xml.cdat _ => []
def itemsOfForest : XmlForest → List XmlForest
  | XmlForest.nil => []
  | XmlForest.cons t ts => itemsOf t ++ itemsOfForest ts
end

/-- Effect of one direct child on the node currently on top of the
stack: text and CDATA overwrite the respective field, a child element
leaves it unchanged (the child is pushed, filled and popped). -/
def writeOne (t : Xml) (n : XmlNode) : XmlNode :=
  match t with
  | Xml.elem _ _ => n
  | Xml.txt s => { n with value := some s }
  | Xml.cdat s => { n with cdata := some s }

def writeF : XmlForest → XmlNode → XmlNode
  | XmlForest.nil, n => n
  | XmlForest.cons t ts, n => writeF ts (writeOne t n)

mutual
/-- The completed nodes an element contributes, in pop (post) order:
all descendant elements, each with the last direct text / CDATA it
received, the element itself last. -/
def nodesOf : Xml → List XmlNode
  | Xml.elem tag cs =>
      nodesOfForest cs ++ [writeF cs (XmlNode.mk (toLowerStr tag) none none)]
  | Xml.txt _ => []
  | Xml.cdat _ => []
def nodesOfForest : XmlForest → List XmlNode
  | XmlForest.nil => []
  | XmlForest.cons t ts => nodesOf t ++ nodesOfForest ts
end

/-- The record an item element with content `cs` is folded into. -/
def recordOf {T : Type} (G : GradualRssItem T) (cs : XmlForest) : T :=
  List.foldl G.populate G.init (nodesOfForest cs)

mutual
def sizeT : Xml → Nat
  | Xml.elem _ cs => 1 + sizeF cs
  | Xml.txt _ => 1
  | Xml.cdat _ => 1
def sizeF : XmlForest → Nat
  | XmlForest.nil => 1
  | XmlForest.cons t ts => sizeT t + sizeF ts
end

/-- Mid-document tokenizer state: the events still to come after the
engine stopped somewhere inside the document, given as the forest of
remaining siblings plus, per open ancestor, its closing tag and the
siblings following it. -/
def restEvents : XmlForest → List (String × XmlForest) → List Event
  | cs, [] => eventsOfForest cs ++ [Event.eof]
  | cs, p :: ctx => eventsOfForest cs ++ (Event.endTag p.1 :: restEvents p.2 ctx)

/-- Every open ancestor has a non-item tag and well-nested item
elements among its following siblings. -/
def ctxOk : List (String × XmlForest) → Bool
  | [] => true
  | p :: ctx =>
      (!(toLowerStr p.1 == toLowerStr ("item"))) && okForest p.2 && ctxOk ctx

def ctxItems : List (String × XmlForest) → List XmlForest
  | [] => []
  | p :: ctx => itemsOfForest p.2 ++ ctxItems ctx

/-- The item elements (their content forests) still to come, in
document order. -/
def itemsRest (cs : XmlForest) (ctx : List (String × XmlForest)) : List XmlForest :=
  itemsOfForest cs ++ ctxItems ctx

def msr (cs : XmlForest) (ctx : List (String × XmlForest)) : Nat :=
  sizeF cs + (ctx.map (fun p => sizeF p.2)).sum

/-- The nesting stack is aligned with the open-ancestor context: the
i-th node from the top carries the lowercased tag of the i-th
innermost open element.  This is the shape every reachable stack has
on balanced input; entries of the context beyond the stack belong to
elements opened in earlier invocations (whose stack was discarded). -/
def aligned : List XmlNode → List (String × XmlForest) → Prop
  | [], _ => True
  | _ :: _, [] => False
  | nd :: st, q :: ctx => nd.tag = toLowerStr q.1 ∧ aligned st ctx

/-- Construction-time errors of the transport adapters (the
`std::io::Error` values `File::open` / connecting can produce). -/
inductive IoError where
  | notFound
  | permissionDenied
  | connectionFailed
deriving DecidableEq

/-- `RssParser::new`: wraps a byte source (here: the event stream its
tokenizer would produce) and always succeeds. -/
def RssParser.new (input : List Event) : Except IoError RssParser :=
  Except.ok ⟨input⟩

/-- `RssParser::from_file`: `File::open(path).await?` then `new`.  The
file system is modelled as a function from paths to either an open
error or the tokenized content. -/
def RssParser.from_file (fs : String → Except IoError (List Event)) (path : String) :
    Except IoError RssParser :=
  match fs path with
  | Except.error e => Except.error e
  | Except.ok contents => RssParser.new contents

/-- `RssParser::from_tcp`: wraps an accepted connection via `new`. -/
def RssParser.from_tcp (stream : List Event) : Except IoError RssParser :=
  RssParser.new stream

/-- A tiny concrete file system: one readable file. -/
def fsSample (path : String) : Except IoError (List Event) :=
  if path = ("feed.xml") then Except.ok [Event.eof] else Except.error IoError.notFound

/-- Normalises an event by lowercasing its tag name; two event streams
are the same document up to tag-name case exactly when their images
under this map agree pointwise. -/
def lowerEvent : Event → Event
  | Event.start n => Event.start (toLowerStr n)
  | Event.endTag n => Event.endTag (toLowerStr n)
  | e => e

/-- Content of the first sample item: a title and a link. -/
def itemOneContent : XmlForest :=
  XmlForest.cons (Xml.elem ("title") (XmlForest.cons (Xml.txt ("First Item")) XmlForest.nil))
    (XmlForest.cons (Xml.elem ("link") (XmlForest.cons (Xml.txt ("a")) XmlForest.nil))
      XmlForest.nil)

/-- Content of the second sample item: a title and a CDATA description. -/
def itemTwoContent : XmlForest :=
  XmlForest.cons (Xml.elem ("title") (XmlForest.cons (Xml.txt ("Second Item")) XmlForest.nil))
    (XmlForest.cons (Xml.elem ("description")
      (XmlForest.cons (Xml.cdat ("Description with <b>HTML</b> content")) XmlForest.nil))
      XmlForest.nil)

/-- A sample well-formed feed: rss > channel > title, item, ITEM. -/
def sampleDoc : XmlForest :=
  XmlForest.cons (Xml.elem ("rss") (XmlForest.cons (Xml.elem ("channel")
    (XmlForest.cons (Xml.elem ("title") (XmlForest.cons (Xml.txt ("Test RSS Feed")) XmlForest.nil))
      (XmlForest.cons (Xml.elem ("item") itemOneContent)
        (XmlForest.cons (Xml.elem ("ITEM") itemTwoContent) XmlForest.nil))))
    XmlForest.nil)) XmlForest.nil

/-- A well-formed document whose two item elements are nested. -/
def nestedItemDoc : XmlForest :=
  XmlForest.cons (Xml.elem ("item") (XmlForest.cons (Xml.elem ("item") XmlForest.nil)
    XmlForest.nil)) XmlForest.nil

theorem nextGo_snd_le {T : Type} (G : GradualRssItem T) :
    ∀ (evs : List Event) (stack : List XmlNode) (p : Option T),
      (nextGo G evs stack p).2.length ≤ evs.length := by
  intro evs
  induction evs with
  | nil => intro stack p; simp [nextGo]
  | cons e rest ih =>
    intro stack p
    cases e with
    | start name =>
      simp only [nextGo]
      exact le_trans (ih _ _) (Nat.le_succ _)
    | endTag name =>
      simp only [nextGo]
      by_cases h : toLowerStr name = toLowerStr ("item")
      · simp [h]
      · simp only [if_neg h]
        cases stack with
        | nil => exact le_trans (ih _ _) (Nat.le_succ _)
        | cons node stack' =>
          cases p with
          | none => exact le_trans (ih _ _) (Nat.le_succ _)
          | some r => exact le_trans (ih _ _) (Nat.le_succ _)
    | cdata c =>
      cases stack with
      | nil => exact le_trans (ih _ _) (Nat.le_succ _)
      | cons node stack' => exact le_trans (ih _ _) (Nat.le_succ _)
    | text c =>
      cases stack with
      | nil => exact le_trans (ih _ _) (Nat.le_succ _)
      | cons node stack' => exact le_trans (ih _ _) (Nat.le_succ _)
    | eof => simp [nextGo]
    | decodeError => simp [nextGo]
    | other => exact le_trans (ih _ _) (Nat.le_succ _)

theorem nextGo_cons_snd_le {T : Type} (G : GradualRssItem T)
    (e : Event) (rest : List Event) (stack : List XmlNode) (p : Option T) :
    (nextGo G (e :: rest) stack p).2.length ≤ rest.length := by
  cases e with
  | start name =>
    simp only [nextGo]
    exact nextGo_snd_le G _ _ _
  | endTag name =>
    simp only [nextGo]
    by_cases h : toLowerStr name = toLowerStr ("item")
    · simp [h]
    · simp only [if_neg h]
      cases stack with
      | nil => exact nextGo_snd_le G _ _ _
      | cons node stack' =>
        cases p with
        | none => exact nextGo_snd_le G _ _ _
        | some r => exact nextGo_snd_le G _ _ _
  | cdata c =>
    cases stack with
    | nil =>
      simp only [nextGo]
      exact nextGo_snd_le G _ _ _
    | cons node stack' =>
      simp only [nextGo]
      exact nextGo_snd_le G _ _ _
  | text c =>
    cases stack with
    | nil =>
      simp only [nextGo]
      exact nextGo_snd_le G _ _ _
    | cons node stack' =>
      simp only [nextGo]
      exact nextGo_snd_le G _ _ _
  | eof => simp [nextGo]
  | decodeError => simp [nextGo]
  | other =>
    simp only [nextGo]
    exact nextGo_snd_le G _ _ _

theorem next_some_length_lt {T : Type} (G : GradualRssItem T)
    (p : RssParser) (t : T) (p2 : RssParser)
    (h : RssParser.next G p = (some t, p2)) :
    p2.events.length < p.events.length := by
  rcases p with ⟨evs⟩
  cases evs with
  | nil =>
    exfalso
    simp [RssParser.next, nextGo] at h
  | cons e rest =>
    have h2 : p2.events = (nextGo G (e :: rest) [] none).2 := by
      simp [RssParser.next] at h
      rw [← h.2]
    rw [h2]
    exact Nat.lt_succ_of_le (nextGo_cons_snd_le G e rest [] none)


theorem parseAllF_congr {T : Type} (G : GradualRssItem T) :
    ∀ (f1 f2 : Nat) (p : RssParser),
      p.events.length < f1 → p.events.length < f2 →
      parseAllF G f1 p = parseAllF G f2 p := by
  intro f1
  induction f1 with
  | zero => intro f2 p h1 h2; exact absurd h1 (Nat.not_lt_zero _)
  | succ f1 ih =>
    intro f2 p h1 h2
    cases f2 with
    | zero => exact absurd h2 (Nat.not_lt_zero _)
    | succ f2 =>
      simp only [parseAllF]
      cases h : RssParser.next G p with
      | mk r p2 =>
        cases r with
        | none => rfl
        | some t =>
          have hlt := next_some_length_lt G p t p2 h
          have heq := ih f2 p2 (lt_of_lt_of_le hlt (Nat.lt_succ_iff.mp h1))
            (lt_of_lt_of_le hlt (Nat.lt_succ_iff.mp h2))
          show t :: parseAllF G f1 p2 = t :: parseAllF G f2 p2
          rw [heq]

theorem parseAll_none {T : Type} (G : GradualRssItem T) (p : RssParser) (p2 : RssParser)
    (h : RssParser.next G p = (none, p2)) : parseAll G p = [] := by
  simp [parseAll, parseAllF, h]

theorem parseAll_some {T : Type} (G : GradualRssItem T) (p : RssParser)
    (t : T) (p2 : RssParser)
    (h : RssParser.next G p = (some t, p2)) :
    parseAll G p = t :: parseAll G p2 := by
  have hlt := next_some_length_lt G p t p2 h
  have h1 : parseAll G p = t :: parseAllF G p.events.length p2 := by
    simp only [parseAll, parseAllF, h]
  rw [h1]
  have h2 : parseAllF G p.events.length p2 = parseAll G p2 :=
    parseAllF_congr G p.events.length (p2.events.length + 1) p2 hlt (Nat.lt_succ_self _)
  rw [h2]



mutual
/-- Inside an open item, consuming the events of one item-free tree
pops back to the same depth, applies the tree's direct text / CDATA to
the node below it, and folds all its completed nodes into the record. -/
theorem inItemTree {T : Type} (G : GradualRssItem T) (t : Xml)
    (h : hasItem t = false) (n : XmlNode) (stack : List XmlNode)
    (rest : List Event) (r : T) :
    nextGo G (eventsOf t ++ rest) (n :: stack) (some r)
      = nextGo G rest (writeOne t n :: stack)
          (some (List.foldl G.populate r (nodesOf t))) := by
  cases t with
  | elem tag cs =>
    simp only [hasItem, Bool.or_eq_false_iff, beq_eq_false_iff_ne, ne_eq] at h
    obtain ⟨hne, hcs⟩ := h
    simp only [eventsOf, List.cons_append, List.append_assoc, List.singleton_append,
      List.nil_append]
    simp only [nextGo]
    rw [if_neg hne]
    rw [inItemForest G cs hcs (XmlNode.mk (toLowerStr tag) none none) (n :: stack)
      (Event.endTag tag :: rest) r]
    simp only [nextGo]
    rw [if_neg hne]
    simp only [writeOne, nodesOf, List.foldl_append, List.foldl_cons, List.foldl_nil]
  | txt s =>
    simp only [eventsOf, List.singleton_append, List.nil_append, nextGo, writeOne,
      nodesOf, List.foldl_nil]
    rfl
  | cdat s =>
    simp only [eventsOf, List.singleton_append, List.nil_append, nextGo, writeOne,
      nodesOf, List.foldl_nil]
    rfl

/-- Forest version of `inItemTree`. -/
theorem inItemForest {T : Type} (G : GradualRssItem T) (cs : XmlForest)
    (h : hasItemForest cs = false) (n : XmlNode) (stack : List XmlNode)
    (rest : List Event) (r : T) :
    nextGo G (eventsOfForest cs ++ rest) (n :: stack) (some r)
      = nextGo G rest (writeF cs n :: stack)
          (some (List.foldl G.populate r (nodesOfForest cs))) := by
  cases cs with
  | nil =>
    simp only [eventsOfForest, List.nil_append, writeF, nodesOfForest, List.foldl_nil]
  | cons t ts =>
    simp only [hasItemForest, Bool.or_eq_false_iff] at h
    obtain ⟨ht, hts⟩ := h
    simp only [eventsOfForest, List.append_assoc]
    rw [inItemTree G t ht n stack (eventsOfForest ts ++ rest) r]
    rw [inItemForest G ts hts (writeOne t n) stack rest _]
    simp only [writeF, nodesOfForest, List.foldl_append]
end


theorem sizeT_pos (t : Xml) : 1 ≤ sizeT t := by
  cases t <;> simp [sizeT]

theorem msr_pop (p : String × XmlForest) (ctx : List (String × XmlForest)) :
    msr p.2 ctx < msr XmlForest.nil (p :: ctx) := by
  simp [msr, sizeF]

theorem msr_tail (t : Xml) (ts : XmlForest) (ctx : List (String × XmlForest)) :
    msr ts ctx < msr (XmlForest.cons t ts) ctx := by
  have := sizeT_pos t
  simp only [msr, sizeF]
  omega

theorem msr_descend (tag : String) (ccs ts : XmlForest)
    (ctx : List (String × XmlForest)) :
    msr ccs ((tag, ts) :: ctx) < msr (XmlForest.cons (Xml.elem tag ccs) ts) ctx := by
  simp only [msr, sizeF, sizeT, List.map_cons, List.sum_cons]
  omega

theorem restEvents_cons (t : Xml) (ts : XmlForest)
    (ctx : List (String × XmlForest)) :
    restEvents (XmlForest.cons t ts) ctx = eventsOf t ++ restEvents ts ctx := by
  cases ctx with
  | nil => simp [restEvents, eventsOfForest, List.append_assoc]
  | cons p ctx' => simp [restEvents, eventsOfForest, List.append_assoc]

/-- Scanning with no record in progress: from any mid-document state
(and any stack), one invocation of the event loop either reaches the
end of the document producing nothing (no items remain), or produces
exactly the record of the next item element and stops right after its
closing tag. -/
theorem scanSpec {T : Type} (G : GradualRssItem T) (cs : XmlForest)
    (ctx : List (String × XmlForest))
    (h1 : okForest cs = true) (h2 : ctxOk ctx = true) (stack : List XmlNode) :
    (itemsRest cs ctx = [] →
      nextGo G (restEvents cs ctx) stack none = (none, [])) ∧
    (∀ i is, itemsRest cs ctx = i :: is →
      ∃ cs2 ctx2, okForest cs2 = true ∧ ctxOk ctx2 = true ∧
        msr cs2 ctx2 < msr cs ctx ∧ itemsRest cs2 ctx2 = is ∧
        nextGo G (restEvents cs ctx) stack none
          = (some (recordOf G i), restEvents cs2 ctx2)) := by
  cases cs with
  | nil =>
    cases ctx with
    | nil =>
      constructor
      · intro _
        simp [restEvents, eventsOfForest, nextGo]
      · intro i is hii
        simp [itemsRest, itemsOfForest, ctxItems] at hii
    | cons p ctx' =>
      simp only [ctxOk, Bool.and_eq_true, Bool.not_eq_true',
        beq_eq_false_iff_ne, ne_eq] at h2
      obtain ⟨⟨hne, hsib⟩, hctx⟩ := h2
      have hre : restEvents XmlForest.nil (p :: ctx')
          = Event.endTag p.1 :: restEvents p.2 ctx' := by
        simp [restEvents, eventsOfForest]
      have hit : itemsRest XmlForest.nil (p :: ctx') = itemsRest p.2 ctx' := by
        simp [itemsRest, itemsOfForest, ctxItems]
      have hstep : ∀ st : List XmlNode,
          nextGo G (restEvents XmlForest.nil (p :: ctx')) st none
            = nextGo G (restEvents p.2 ctx') st.tail none := by
        intro st
        rw [hre]
        cases st with
        | nil =>
          simp only [nextGo]
          rw [if_neg hne]
          rfl
        | cons nd st' =>
          simp only [nextGo]
          rw [if_neg hne]
          rfl
      have IH := scanSpec G p.2 ctx' hsib hctx stack.tail
      constructor
      · intro hnil
        rw [hit] at hnil
        rw [hstep]
        exact IH.1 hnil
      · intro i is hii
        rw [hit] at hii
        obtain ⟨cs2, ctx2, a1, a2, a3, a4, a5⟩ := IH.2 i is hii
        exact ⟨cs2, ctx2, a1, a2, lt_trans a3 (msr_pop p ctx'), a4,
          by rw [hstep]; exact a5⟩
  | cons t ts =>
    cases t with
    | txt s =>
      simp only [okForest, okTree, Bool.and_eq_true, true_and] at h1
      have hre : restEvents (XmlForest.cons (Xml.txt s) ts) ctx
          = Event.text (some s) :: restEvents ts ctx := by
        rw [restEvents_cons]
        simp [eventsOf]
      have hit : itemsRest (XmlForest.cons (Xml.txt s) ts) ctx = itemsRest ts ctx := by
        simp [itemsRest, itemsOfForest, itemsOf]
      have hstep : ∀ st : List XmlNode, ∃ st2 : List XmlNode,
          nextGo G (restEvents (XmlForest.cons (Xml.txt s) ts) ctx) st none
            = nextGo G (restEvents ts ctx) st2 none := by
        intro st
        rw [hre]
        cases st with
        | nil => exact ⟨[], rfl⟩
        | cons nd st' => exact ⟨{ nd with value := some s } :: st', rfl⟩
      obtain ⟨st2, hst2⟩ := hstep stack
      have IH := scanSpec G ts ctx h1 h2 st2
      constructor
      · intro hnil
        rw [hit] at hnil
        rw [hst2]
        exact IH.1 hnil
      · intro i is hii
        rw [hit] at hii
        obtain ⟨cs2, ctx2, a1, a2, a3, a4, a5⟩ := IH.2 i is hii
        exact ⟨cs2, ctx2, a1, a2, lt_trans a3 (msr_tail _ ts ctx), a4,
          by rw [hst2]; exact a5⟩
    | cdat s =>
      simp only [okForest, okTree, Bool.and_eq_true, true_and] at h1
      have hre : restEvents (XmlForest.cons (Xml.cdat s) ts) ctx
          = Event.cdata (some s) :: restEvents ts ctx := by
        rw [restEvents_cons]
        simp [eventsOf]
      have hit : itemsRest (XmlForest.cons (Xml.cdat s) ts) ctx = itemsRest ts ctx := by
        simp [itemsRest, itemsOfForest, itemsOf]
      have hstep : ∀ st : List XmlNode, ∃ st2 : List XmlNode,
          nextGo G (restEvents (XmlForest.cons (Xml.cdat s) ts) ctx) st none
            = nextGo G (restEvents ts ctx) st2 none := by
        intro st
        rw [hre]
        cases st with
        | nil => exact ⟨[], rfl⟩
        | cons nd st' => exact ⟨{ nd with cdata := some s } :: st', rfl⟩
      obtain ⟨st2, hst2⟩ := hstep stack
      have IH := scanSpec G ts ctx h1 h2 st2
      constructor
      · intro hnil
        rw [hit] at hnil
        rw [hst2]
        exact IH.1 hnil
      · intro i is hii
        rw [hit] at hii
        obtain ⟨cs2, ctx2, a1, a2, a3, a4, a5⟩ := IH.2 i is hii
        exact ⟨cs2, ctx2, a1, a2, lt_trans a3 (msr_tail _ ts ctx), a4,
          by rw [hst2]; exact a5⟩
    | elem tag ccs =>
      simp only [okForest, Bool.and_eq_true] at h1
      obtain ⟨hok, hts⟩ := h1
      have hre2 : restEvents (XmlForest.cons (Xml.elem tag ccs) ts) ctx
          = Event.start tag :: restEvents ccs ((tag, ts) :: ctx) := by
        rw [restEvents_cons]
        simp [eventsOf, restEvents, List.append_assoc]
      by_cases hitem : toLowerStr tag = toLowerStr ("item")
      · have hno : hasItemForest ccs = false := by
          simp only [okTree, beq_iff_eq, if_pos hitem, Bool.not_eq_true'] at hok
          exact hok
        have hit : itemsRest (XmlForest.cons (Xml.elem tag ccs) ts) ctx
            = ccs :: itemsRest ts ctx := by
          simp [itemsRest, itemsOfForest, itemsOf, hitem]
        constructor
        · intro hnil
          rw [hit] at hnil
          exact absurd hnil (List.cons_ne_nil _ _)
        · intro i is hii
          rw [hit] at hii
          injection hii with hi his
          subst hi
          refine ⟨ts, ctx, hts, h2, msr_tail _ ts ctx, his, ?_⟩
          rw [hre2]
          simp only [nextGo]
          rw [if_pos hitem]
          have hrcc : restEvents ccs ((tag, ts) :: ctx)
              = eventsOfForest ccs ++ (Event.endTag tag :: restEvents ts ctx) := by
            simp [restEvents]
          rw [hrcc]
          rw [inItemForest G ccs hno (XmlNode.mk (toLowerStr tag) none none)
            stack (Event.endTag tag :: restEvents ts ctx) G.init]
          simp only [nextGo]
          rw [if_pos hitem]
          rfl
      · have hccs : okForest ccs = true := by
          simp only [okTree, beq_iff_eq, if_neg hitem] at hok
          exact hok
        have hctx2 : ctxOk ((tag, ts) :: ctx) = true := by
          simp only [ctxOk, Bool.and_eq_true, Bool.not_eq_true',
            beq_eq_false_iff_ne, ne_eq]
          exact ⟨⟨hitem, hts⟩, h2⟩
        have hit : itemsRest (XmlForest.cons (Xml.elem tag ccs) ts) ctx
            = itemsRest ccs ((tag, ts) :: ctx) := by
          simp [itemsRest, itemsOfForest, itemsOf, hitem, ctxItems,
            List.append_assoc]
        have hstep : nextGo G (restEvents (XmlForest.cons (Xml.elem tag ccs) ts) ctx) stack none
            = nextGo G (restEvents ccs ((tag, ts) :: ctx))
                (XmlNode.mk (toLowerStr tag) none none :: stack) none := by
          rw [hre2]
          simp only [nextGo]
          rw [if_neg hitem]
        have IH := scanSpec G ccs ((tag, ts) :: ctx) hccs hctx2
          (XmlNode.mk (toLowerStr tag) none none :: stack)
        constructor
        · intro hnil
          rw [hit] at hnil
          rw [hstep]
          exact IH.1 hnil
        · intro i is hii
          rw [hit] at hii
          obtain ⟨cs2, ctx2, a1, a2, a3, a4, a5⟩ := IH.2 i is hii
          exact ⟨cs2, ctx2, a1, a2, lt_trans a3 (msr_descend tag ccs ts ctx), a4,
            by rw [hstep]; exact a5⟩
termination_by msr cs ctx
decreasing_by
  all_goals subst_vars
  all_goals first
    | exact msr_pop _ _
    | exact msr_tail _ _ _
    | exact msr_descend _ _ _ _

/-- Repeatedly calling `next` from any mid-document scanning state
yields exactly the records of the remaining item elements, in document
order. -/
theorem runSpec {T : Type} (G : GradualRssItem T) (cs : XmlForest)
    (ctx : List (String × XmlForest))
    (h1 : okForest cs = true) (h2 : ctxOk ctx = true) :
    parseAll G ⟨restEvents cs ctx⟩ = (itemsRest cs ctx).map (recordOf G) := by
  cases hii : itemsRest cs ctx with
  | nil =>
    have h := (scanSpec G cs ctx h1 h2 []).1 hii
    have hn : RssParser.next G ⟨restEvents cs ctx⟩ = (none, ⟨[]⟩) := by
      simp [RssParser.next, h]
    rw [parseAll_none G _ _ hn]
    simp
  | cons i is =>
    obtain ⟨cs2, ctx2, a1, a2, a3, a4, a5⟩ := (scanSpec G cs ctx h1 h2 []).2 i is hii
    have hn : RssParser.next G ⟨restEvents cs ctx⟩
        = (some (recordOf G i), ⟨restEvents cs2 ctx2⟩) := by
      simp [RssParser.next, a5]
    rw [parseAll_some G _ _ _ hn]
    rw [runSpec G cs2 ctx2 a1 a2]
    rw [a4]
    simp
termination_by msr cs ctx
decreasing_by exact a3

mutual
theorem hasItem_count_tree (t : Xml) (h : hasItem t = false) : countItems t = 0 := by
  cases t with
  | elem tag cs =>
    simp only [hasItem, Bool.or_eq_false_iff, beq_eq_false_iff_ne, ne_eq] at h
    simp only [countItems, hasItem_count_forest cs h.2, beq_iff_eq, if_neg h.1]
  | txt s => simp [countItems]
  | cdat s => simp [countItems]

theorem hasItem_count_forest (cs : XmlForest) (h : hasItemForest cs = false) :
    countItemsForest cs = 0 := by
  cases cs with
  | nil => simp [countItemsForest]
  | cons t ts =>
    simp only [hasItemForest, Bool.or_eq_false_iff] at h
    simp [countItemsForest, hasItem_count_tree t h.1, hasItem_count_forest ts h.2]
end

mutual
theorem items_length_tree (t : Xml) (h : okTree t = true) :
    (itemsOf t).length = countItems t := by
  cases t with
  | elem tag cs =>
    by_cases hitem : toLowerStr tag = toLowerStr ("item")
    · simp only [okTree, beq_iff_eq, if_pos hitem, Bool.not_eq_true'] at h
      simp [itemsOf, countItems, hitem, hasItem_count_forest cs h]
    · simp only [okTree, beq_iff_eq, if_neg hitem] at h
      simp [itemsOf, countItems, hitem, items_length_forest cs h]
  | txt s => simp [itemsOf, countItems]
  | cdat s => simp [itemsOf, countItems]

theorem items_length_forest (cs : XmlForest) (h : okForest cs = true) :
    (itemsOfForest cs).length = countItemsForest cs := by
  cases cs with
  | nil => simp [itemsOfForest, countItemsForest]
  | cons t ts =>
    simp only [okForest, Bool.and_eq_true] at h
    simp [itemsOfForest, countItemsForest, items_length_tree t h.1,
      items_length_forest ts h.2]
end

/-- C1 counterexample: the claim says an item left open at
end-of-input yields no record (`next` returns `none`), but the loop
`break`s on `Eof` and returns `processing` as is, so the truncated
input `<item>` followed by end-of-input yields `Some` of the partial
(here: empty) record. -/
theorem c1_counterexample :
    (RssParser.next collectG ⟨[Event.start ("item"), Event.eof]⟩).1 = some [] ∧
    (RssParser.next collectG ⟨[Event.start ("item"), Event.eof]⟩).1 ≠ none := by
  constructor
  · decide
  · decide

/-- C1 amended: when the event loop ends because of end-of-input or a
decode/read error while a record is in progress, the invocation
returns that record in progress as `Some` — a truncated or malformed
tail CAN yield a partial record. -/
theorem c1_amended {T : Type} (G : GradualRssItem T) (t : T)
    (stack : List XmlNode) (rest : List Event) :
    nextGo G (Event.eof :: rest) stack (some t) = (some t, rest) ∧
    nextGo G (Event.decodeError :: rest) stack (some t) = (some t, rest) ∧
    nextGo G [] stack (some t) = (some t, []) :=
  ⟨rfl, rfl, rfl⟩

/-- C3 counterexample: a title element receives plain text "t" and
then, later in document order, CDATA "c"; the record's title is the
text "t" (the test capability keeps `value.or(cdata)`), not the value
of the later event "c" — so "whichever occurred later is kept" fails. -/
theorem c3_counterexample :
    (RssParser.next testItemG ⟨[Event.start ("item"), Event.start ("title"),
        Event.text (some ("t")), Event.cdata (some ("c")),
        Event.endTag ("title"), Event.endTag ("item")]⟩).1
      = some (TestRssItem.mk (some ("t")) none none none) ∧
    ("t" : String) ≠ ("c") := by
  constructor
  · decide
  · decide

/-- C3 amended: text and CDATA are stored in separate fields of the
node, each field individually last-write-wins (never concatenation);
the node handed to `populate` carries both, and which value the record
keeps is decided by the caller's `populate`. -/
theorem c3_amended {T : Type} (G : GradualRssItem T) (tagName : String)
    (h : ¬ toLowerStr tagName = toLowerStr ("item")) (t1 c1 t2 c2 : String)
    (stack : List XmlNode) (rest : List Event) (r : T) :
    nextGo G (Event.start tagName :: Event.text (some t1) :: Event.cdata (some c1)
        :: Event.text (some t2) :: Event.cdata (some c2)
        :: Event.endTag tagName :: rest) stack (some r)
      = nextGo G rest stack
          (some (G.populate r (XmlNode.mk (toLowerStr tagName) (some t2) (some c2)))) := by
  simp only [nextGo, if_neg h]

/-- C3 witness: the amended statement at a concrete title element. -/
theorem c3_witness :
    (¬ toLowerStr ("title") = toLowerStr ("item")) ∧
    nextGo collectG [Event.start ("title"), Event.text (some ("t1")),
        Event.cdata (some ("c1")), Event.text (some ("t2")),
        Event.cdata (some ("c2")), Event.endTag ("title")] [] (some [])
      = nextGo collectG [] []
          (some (collectG.populate []
            (XmlNode.mk (toLowerStr ("title")) (some ("t2")) (some ("c2"))))) :=
  ⟨by decide, c3_amended collectG ("title") (by decide) ("t1") ("c1") ("t2") ("c2") [] [] []⟩

/-- C4: a start tag whose lowercased name is "item" unconditionally
begins a fresh record via `init`, whatever record was in progress. -/
theorem c4_theorem {T : Type} (G : GradualRssItem T) (name : String)
    (h : toLowerStr name = toLowerStr ("item")) (rest : List Event)
    (stack : List XmlNode) (p : Option T) :
    nextGo G (Event.start name :: rest) stack p
      = nextGo G rest (XmlNode.mk (toLowerStr name) none none :: stack) (some G.init) := by
  simp only [nextGo, if_pos h]

/-- C4 witness: a nested `ITEM` start while a nonempty record is in
progress discards it and restarts from `init`. -/
theorem c4_witness :
    toLowerStr ("ITEM") = toLowerStr ("item") ∧
    nextGo collectG [Event.start ("ITEM")] [] (some [XmlNode.mk ("junk") none none])
      = nextGo collectG [] [XmlNode.mk (toLowerStr ("ITEM")) none none] (some collectG.init) :=
  ⟨by decide,
    c4_theorem collectG ("ITEM") (by decide) [] [] (some [XmlNode.mk ("junk") none none])⟩

/-- C5: any end tag that is not the item delimiter pops the top node
unconditionally — no comparison of the popped node's tag with the
closing name — and folds it into the record in progress if there is
one. -/
theorem c5_theorem {T : Type} (G : GradualRssItem T) (name : String)
    (h : ¬ toLowerStr name = toLowerStr ("item")) (node : XmlNode)
    (stack : List XmlNode) (rest : List Event) (p : Option T) :
    nextGo G (Event.endTag name :: rest) (node :: stack) p
      = nextGo G rest stack (p.map (fun r => G.populate r node)) := by
  simp only [nextGo, if_neg h]
  cases p with
  | none => rfl
  | some r => rfl

/-- C5 witness: a closing tag `b` pops and folds a node whose tag is
`a` — the mismatch is not checked. -/
theorem c5_witness :
    (¬ toLowerStr ("b") = toLowerStr ("item")) ∧
    nextGo collectG [Event.endTag ("b")] [XmlNode.mk ("a") none none] (some [])
      = nextGo collectG [] [] (some [XmlNode.mk ("a") none none]) :=
  ⟨by decide,
    c5_theorem collectG ("b") (by decide) (XmlNode.mk ("a") none none) [] [] (some [])⟩

/-- C7: a text or CDATA event arriving while the nesting stack is
empty is a no-op — same stack, same record, the loop just continues. -/
theorem c7_theorem {T : Type} (G : GradualRssItem T) (c : Option String)
    (rest : List Event) (p : Option T) :
    nextGo G (Event.text c :: rest) [] p = nextGo G rest [] p ∧
    nextGo G (Event.cdata c :: rest) [] p = nextGo G rest [] p :=
  ⟨rfl, rfl⟩

/-- C8: failures to open the source surface as construction-time
errors from `from_file` (and `new` itself never fails), while during
parsing a decode/read error behaves exactly like end-of-input: the
loop stops and the invocation returns an `Option`, never a distinct
error value. -/
theorem c8_theorem {T : Type} (G : GradualRssItem T) :
    (∀ (fs : String → Except IoError (List Event)) (path : String) (e : IoError),
      fs path = Except.error e → RssParser.from_file fs path = Except.error e) ∧
    (∀ (fs : String → Except IoError (List Event)) (path : String) (v : List Event),
      fs path = Except.ok v → RssParser.from_file fs path = Except.ok ⟨v⟩) ∧
    (∀ (stack : List XmlNode) (p : Option T) (rest : List Event),
      nextGo G (Event.decodeError :: rest) stack p = (p, rest) ∧
      nextGo G (Event.eof :: rest) stack p = (p, rest)) := by
  refine ⟨?_, ?_, ?_⟩
  · intro fs path e h
    simp [RssParser.from_file, h]
  · intro fs path v h
    simp [RssParser.from_file, h, RssParser.new]
  · intro stack p rest
    exact ⟨rfl, rfl⟩

/-- C8 witness: the concrete one-file file system. -/
theorem c8_witness :
    fsSample ("missing.xml") = Except.error IoError.notFound ∧
    RssParser.from_file fsSample ("missing.xml") = Except.error IoError.notFound ∧
    fsSample ("feed.xml") = Except.ok [Event.eof] ∧
    RssParser.from_file fsSample ("feed.xml") = Except.ok ⟨[Event.eof]⟩ ∧
    nextGo collectG [Event.decodeError] [] (some []) = (some [], []) := by
  refine ⟨by rfl, ?_, by rfl, ?_, ?_⟩
  · exact (c8_theorem collectG).1 fsSample ("missing.xml") IoError.notFound (by rfl)
  · exact (c8_theorem collectG).2.1 fsSample ("feed.xml") [Event.eof] (by rfl)
  · exact ((c8_theorem collectG).2.2 [] (some []) []).1

/-- C9: every invocation of `next` starts the loop with a fresh empty
stack and no record in progress, and an end tag arriving on the empty
stack pops nothing and fails nothing. -/
theorem c9_theorem {T : Type} (G : GradualRssItem T) :
    (∀ p : RssParser, RssParser.next G p
        = ((nextGo G p.events [] none).1, ⟨(nextGo G p.events [] none).2⟩)) ∧
    (∀ (name : String) (rest : List Event) (p : Option T),
      ¬ toLowerStr name = toLowerStr ("item") →
      nextGo G (Event.endTag name :: rest) [] p = nextGo G rest [] p) := by
  constructor
  · intro p
    rfl
  · intro name rest p h
    simp only [nextGo, if_neg h]

/-- C9 witness: a `channel` end tag on an empty stack is a no-op. -/
theorem c9_witness :
    RssParser.next collectG ⟨[Event.eof]⟩
      = ((nextGo collectG [Event.eof] [] none).1, ⟨(nextGo collectG [Event.eof] [] none).2⟩) ∧
    (¬ toLowerStr ("channel") = toLowerStr ("item")) ∧
    nextGo collectG [Event.endTag ("channel")] [] (some [])
      = nextGo collectG [] [] (some []) :=
  ⟨(c9_theorem collectG).1 ⟨[Event.eof]⟩, by decide,
    (c9_theorem collectG).2 ("channel") [] (some []) (by decide)⟩

/-- C2 counterexample: the well-formed document
`<item><item></item></item>` contains two item elements, yet repeated
`next` calls produce only one record — a nested item start discards
the outer record, and the outer closing tag then ends an invocation
with no record in progress. -/
theorem c2_counterexample :
    countItemsForest nestedItemDoc = 2 ∧
    (parseAll collectG ⟨eventsOfForest nestedItemDoc ++ [Event.eof]⟩).length = 1 := by
  constructor
  · decide
  · decide

/-- C2 amended: for every well-formed document in which no item
element is nested inside another item element, repeated `next` calls
until the first `none` produce exactly the records of the item
elements, in document order — in particular exactly as many records as
there are item elements (and an item-free document yields none). -/
theorem c2_amended {T : Type} (G : GradualRssItem T) (d : XmlForest)
    (h : okForest d = true) :
    parseAll G ⟨eventsOfForest d ++ [Event.eof]⟩ = (itemsOfForest d).map (recordOf G) ∧
    (parseAll G ⟨eventsOfForest d ++ [Event.eof]⟩).length = countItemsForest d := by
  have hrun := runSpec G d [] h rfl
  have hre : restEvents d [] = eventsOfForest d ++ [Event.eof] := rfl
  have hit : itemsRest d [] = itemsOfForest d := by
    simp [itemsRest, ctxItems]
  rw [hre, hit] at hrun
  refine ⟨hrun, ?_⟩
  rw [hrun, List.length_map, items_length_forest d h]

/-- C2 witness: the sample feed (rss > channel > title, item, ITEM)
has two item elements and yields exactly their two records in order. -/
theorem c2_witness :
    okForest sampleDoc = true ∧
    (parseAll collectG ⟨eventsOfForest sampleDoc ++ [Event.eof]⟩
        = (itemsOfForest sampleDoc).map (recordOf collectG) ∧
      (parseAll collectG ⟨eventsOfForest sampleDoc ++ [Event.eof]⟩).length
        = countItemsForest sampleDoc) :=
  ⟨by decide, c2_amended collectG sampleDoc (by decide)⟩

theorem nextGo_lower {T : Type} (G : GradualRssItem T) :
    ∀ (e1 e2 : List Event), e1.map lowerEvent = e2.map lowerEvent →
      ∀ (stack : List XmlNode) (p : Option T),
        (nextGo G e1 stack p).1 = (nextGo G e2 stack p).1 ∧
        (nextGo G e1 stack p).2.map lowerEvent = (nextGo G e2 stack p).2.map lowerEvent := by
  intro e1
  induction e1 with
  | nil =>
    intro e2 h stack p
    cases e2 with
    | nil => exact ⟨rfl, rfl⟩
    | cons f t => simp at h
  | cons f1 t1 ih =>
    intro e2 h stack p
    cases e2 with
    | nil => simp at h
    | cons f2 t2 =>
      simp only [List.map_cons, List.cons.injEq] at h
      obtain ⟨hf, ht⟩ := h
      cases f1 <;> cases f2 <;> simp [lowerEvent] at hf
      case start.start =>
        rename_i n1 n2
        simp only [nextGo]
        rw [hf]
        exact ih t2 ht _ _
      case endTag.endTag =>
        rename_i n1 n2
        simp only [nextGo]
        rw [hf]
        by_cases hit : toLowerStr n2 = toLowerStr ("item")
        · rw [if_pos hit, if_pos hit]
          exact ⟨rfl, ht⟩
        · rw [if_neg hit, if_neg hit]
          cases stack with
          | nil => exact ih t2 ht _ _
          | cons nd st' =>
            cases p with
            | none => exact ih t2 ht _ _
            | some r => exact ih t2 ht _ _
      case text.text =>
        rename_i c1 c2
        subst hf
        cases stack with
        | nil =>
          simp only [nextGo]
          exact ih t2 ht _ _
        | cons nd st' =>
          simp only [nextGo]
          exact ih t2 ht _ _
      case cdata.cdata =>
        rename_i c1 c2
        subst hf
        cases stack with
        | nil =>
          simp only [nextGo]
          exact ih t2 ht _ _
        | cons nd st' =>
          simp only [nextGo]
          exact ih t2 ht _ _
      case eof.eof =>
        simp only [nextGo]
        exact ⟨trivial, ht⟩
      case decodeError.decodeError =>
        simp only [nextGo]
        exact ⟨trivial, ht⟩
      case other.other =>
        simp only [nextGo]
        exact ih t2 ht _ _

theorem parseAll_lower {T : Type} (G : GradualRssItem T) :
    ∀ (n : Nat) (e1 e2 : List Event), e1.length ≤ n →
      e1.map lowerEvent = e2.map lowerEvent →
      parseAll G ⟨e1⟩ = parseAll G ⟨e2⟩ := by
  intro n
  induction n with
  | zero =>
    intro e1 e2 hl h
    have h1 : e1 = [] := List.length_eq_zero.mp (Nat.le_zero.mp hl)
    subst h1
    have h2 : e2 = [] := by
      cases e2 with
      | nil => rfl
      | cons f t => simp at h
    subst h2
    rfl
  | succ n ih =>
    intro e1 e2 hl h
    have hh := nextGo_lower G e1 e2 h [] none
    cases hr1 : nextGo G e1 [] none with
    | mk r1 rest1 =>
      cases hr2 : nextGo G e2 [] none with
      | mk r2 rest2 =>
        rw [hr1, hr2] at hh
        obtain ⟨hr, hrest⟩ := hh
        cases r1 with
        | none =>
          have hn1 : RssParser.next G ⟨e1⟩ = (none, ⟨rest1⟩) := by
            simp [RssParser.next, hr1]
          have hn2 : RssParser.next G ⟨e2⟩ = (none, ⟨rest2⟩) := by
            simp [RssParser.next, hr2, ← hr]
          rw [parseAll_none G _ _ hn1, parseAll_none G _ _ hn2]
        | some t =>
          have hn1 : RssParser.next G ⟨e1⟩ = (some t, ⟨rest1⟩) := by
            simp [RssParser.next, hr1]
          have hn2 : RssParser.next G ⟨e2⟩ = (some t, ⟨rest2⟩) := by
            simp [RssParser.next, hr2, ← hr]
          rw [parseAll_some G _ _ _ hn1, parseAll_some G _ _ _ hn2]
          have hlt := next_some_length_lt G ⟨e1⟩ t ⟨rest1⟩ hn1
          exact congrArg (List.cons t) (ih rest1 rest2
            (Nat.le_of_lt_succ (lt_of_lt_of_le hlt hl)) hrest)

/-- C6: tag-name matching is case-insensitive — two event streams that
agree after lowercasing every start / end tag name (any tag respelled
in any case) produce the same sequence of records. -/
theorem c6_theorem {T : Type} (G : GradualRssItem T) (e1 e2 : List Event)
    (h : e1.map lowerEvent = e2.map lowerEvent) :
    parseAll G ⟨e1⟩ = parseAll G ⟨e2⟩ :=
  parseAll_lower G e1.length e1 e2 le_rfl h

/-- C6 witness: an upper-cased spelling of a one-item feed parses to
the same records as its lower-cased spelling. -/
theorem c6_witness :
    ([Event.start ("ITEM"), Event.start ("TiTlE"), Event.text (some ("t")),
        Event.endTag ("TITLE"), Event.endTag ("Item"), Event.eof].map lowerEvent
      = [Event.start ("item"), Event.start ("title"), Event.text (some ("t")),
        Event.endTag ("title"), Event.endTag ("item"), Event.eof].map lowerEvent) ∧
    parseAll collectG ⟨[Event.start ("ITEM"), Event.start ("TiTlE"), Event.text (some ("t")),
        Event.endTag ("TITLE"), Event.endTag ("Item"), Event.eof]⟩
      = parseAll collectG ⟨[Event.start ("item"), Event.start ("title"), Event.text (some ("t")),
        Event.endTag ("title"), Event.endTag ("item"), Event.eof]⟩ :=
  ⟨by decide, c6_theorem collectG _ _ (by decide)⟩

theorem toNat_ofNat_valid (n : Nat) (h : n < 55296) : (Char.ofNat n).toNat = n := by
  unfold Char.ofNat
  rw [dif_pos (Or.inl h)]
  rfl

theorem lowerChar_idem (c : Char) : lowerChar (lowerChar c) = lowerChar c := by
  by_cases h : 65 ≤ c.toNat ∧ c.toNat ≤ 90
  · have h1 : lowerChar c = Char.ofNat (c.toNat + 32) := by
      unfold lowerChar
      rw [if_pos h]
    have h3 : ¬(65 ≤ (Char.ofNat (c.toNat + 32)).toNat ∧
        (Char.ofNat (c.toNat + 32)).toNat ≤ 90) := by
      rw [toNat_ofNat_valid _ (by omega)]
      omega
    rw [h1]
    unfold lowerChar
    rw [if_neg h3]
  · have h1 : lowerChar c = c := by
      unfold lowerChar
      rw [if_neg h]
    rw [h1, h1]

theorem toLowerStr_idem (s : String) : toLowerStr (toLowerStr s) = toLowerStr s := by
  show String.mk ((s.data.map lowerChar).map lowerChar) = String.mk (s.data.map lowerChar)
  have hmap : ∀ l : List Char, (l.map lowerChar).map lowerChar = l.map lowerChar := by
    intro l
    induction l with
    | nil => rfl
    | cons c cl ih => simp [ih, lowerChar_idem c]
  exact congrArg String.mk (hmap s.data)


theorem nextGoL_agree {T : Type} (G : GradualRssItem T) :
    ∀ (evs : List Event) (stack : List XmlNode) (p : Option T) (log : List XmlNode),
      (nextGoL G evs stack p log).1 = (nextGo G evs stack p).1 ∧
      (nextGoL G evs stack p log).2.1 = (nextGo G evs stack p).2 := by
  intro evs
  induction evs with
  | nil => intro stack p log; exact ⟨rfl, rfl⟩
  | cons e rest ih =>
    intro stack p log
    cases e with
    | start name =>
      simp only [nextGoL, nextGo]
      exact ih _ _ _
    | endTag name =>
      by_cases h : toLowerStr name = toLowerStr ("item")
      · simp [nextGoL, nextGo, if_pos h]
      · cases stack with
        | nil =>
          simp only [nextGoL, nextGo, if_neg h]
          exact ih _ _ _
        | cons nd st' =>
          cases p with
          | none =>
            simp only [nextGoL, nextGo, if_neg h]
            exact ih _ _ _
          | some r =>
            simp only [nextGoL, nextGo, if_neg h]
            exact ih _ _ _
    | cdata c =>
      cases stack with
      | nil =>
        simp only [nextGoL, nextGo]
        exact ih _ _ _
      | cons nd st' =>
        simp only [nextGoL, nextGo]
        exact ih _ _ _
    | text c =>
      cases stack with
      | nil =>
        simp only [nextGoL, nextGo]
        exact ih _ _ _
      | cons nd st' =>
        simp only [nextGoL, nextGo]
        exact ih _ _ _
    | eof => exact ⟨rfl, rfl⟩
    | decodeError => exact ⟨rfl, rfl⟩
    | other =>
      simp only [nextGoL, nextGo]
      exact ih _ _ _

theorem parseAllL_records {T : Type} (G : GradualRssItem T) :
    ∀ (fuel : Nat) (evs : List Event) (log : List XmlNode),
      (parseAllLF G fuel evs log).1 = parseAllF G fuel ⟨evs⟩ := by
  intro fuel
  induction fuel with
  | zero => intro evs log; rfl
  | succ fuel ih =>
    intro evs log
    have hag := nextGoL_agree G evs [] none log
    cases h1 : nextGoL G evs [] none log with
    | mk r1 rl =>
      obtain ⟨rest1, log1⟩ := rl
      cases h2 : nextGo G evs [] none with
      | mk r2 rest2 =>
        rw [h1, h2] at hag
        have hr : r1 = r2 := hag.1
        have hrest : rest1 = rest2 := hag.2
        have hn : RssParser.next G ⟨evs⟩ = (r2, ⟨rest2⟩) := by
          simp [RssParser.next, h2]
        cases r2 with
        | none =>
          simp only [parseAllLF, parseAllF, h1, hn, hr]
        | some t =>
          simp only [parseAllLF, parseAllF, h1, hn, hr]
          rw [hrest]
          exact congrArg (List.cons t) (ih rest2 log1)

theorem nextGoL_tags_lower {T : Type} (G : GradualRssItem T) :
    ∀ (evs : List Event) (stack : List XmlNode) (p : Option T) (log : List XmlNode),
      (∀ n ∈ stack, n.tag = toLowerStr n.tag) →
      (∀ n ∈ log, n.tag = toLowerStr n.tag) →
      ∀ n ∈ (nextGoL G evs stack p log).2.2, n.tag = toLowerStr n.tag := by
  intro evs
  induction evs with
  | nil => intro stack p log hs hlog; exact hlog
  | cons e rest ih =>
    intro stack p log hs hlog
    cases e with
    | start name =>
      show ∀ n ∈ (nextGoL G rest (XmlNode.mk (toLowerStr name) none none :: stack)
          (if toLowerStr name = toLowerStr ("item") then some G.init else p) log).2.2,
        n.tag = toLowerStr n.tag
      refine ih _ _ _ ?_ hlog
      intro n2 hn2
      rcases List.mem_cons.mp hn2 with h1 | h2
      · rw [h1]
        exact (toLowerStr_idem name).symm
      · exact hs n2 h2
    | endTag name =>
      by_cases h : toLowerStr name = toLowerStr ("item")
      · have hstep : (nextGoL G (Event.endTag name :: rest) stack p log).2.2 = log := by
          simp only [nextGoL, if_pos h]
        rw [hstep]
        exact hlog
      · cases stack with
        | nil =>
          have hstep : (nextGoL G (Event.endTag name :: rest) [] p log).2.2
              = (nextGoL G rest [] p log).2.2 := by
            simp only [nextGoL, if_neg h]
          rw [hstep]
          exact ih _ _ _ hs hlog
        | cons nd st' =>
          cases p with
          | none =>
            have hstep : (nextGoL G (Event.endTag name :: rest) (nd :: st') none log).2.2
                = (nextGoL G rest st' none log).2.2 := by
              simp only [nextGoL, if_neg h]
            rw [hstep]
            exact ih _ _ _ (fun n2 hn2 => hs n2 (List.mem_cons_of_mem nd hn2)) hlog
          | some r =>
            have hstep : (nextGoL G (Event.endTag name :: rest) (nd :: st') (some r) log).2.2
                = (nextGoL G rest st' (some (G.populate r nd)) (log ++ [nd])).2.2 := by
              simp only [nextGoL, if_neg h]
            rw [hstep]
            refine ih _ _ _ (fun n2 hn2 => hs n2 (List.mem_cons_of_mem nd hn2)) ?_
            intro n2 hn2
            rcases List.mem_append.mp hn2 with h1 | h2
            · exact hlog n2 h1
            · rw [List.mem_singleton.mp h2]
              exact hs nd (List.mem_cons_self nd st')
    | cdata c =>
      cases stack with
      | nil => exact ih _ _ _ hs hlog
      | cons nd st' =>
        show ∀ n ∈ (nextGoL G rest ({ nd with cdata := c } :: st') p log).2.2,
          n.tag = toLowerStr n.tag
        refine ih _ _ _ ?_ hlog
        intro n2 hn2
        rcases List.mem_cons.mp hn2 with h1 | h2
        · rw [h1]
          exact hs nd (List.mem_cons_self nd st')
        · exact hs n2 (List.mem_cons_of_mem nd h2)
    | text c =>
      cases stack with
      | nil => exact ih _ _ _ hs hlog
      | cons nd st' =>
        show ∀ n ∈ (nextGoL G rest ({ nd with value := c } :: st') p log).2.2,
          n.tag = toLowerStr n.tag
        refine ih _ _ _ ?_ hlog
        intro n2 hn2
        rcases List.mem_cons.mp hn2 with h1 | h2
        · rw [h1]
          exact hs nd (List.mem_cons_self nd st')
        · exact hs n2 (List.mem_cons_of_mem nd h2)
    | eof => exact hlog
    | decodeError => exact hlog
    | other => exact ih _ _ _ hs hlog

theorem parseAllLF_tags_lower {T : Type} (G : GradualRssItem T) :
    ∀ (fuel : Nat) (evs : List Event) (log : List XmlNode),
      (∀ n ∈ log, n.tag = toLowerStr n.tag) →
      ∀ n ∈ (parseAllLF G fuel evs log).2, n.tag = toLowerStr n.tag := by
  intro fuel
  induction fuel with
  | zero => intro evs log hlog; exact hlog
  | succ fuel ih =>
    intro evs log hlog
    have hlog2 := nextGoL_tags_lower G evs [] none log
      (fun n2 hn2 => absurd hn2 (List.not_mem_nil n2)) hlog
    cases hr : nextGoL G evs [] none log with
    | mk r1 rl =>
      obtain ⟨rest, log2⟩ := rl
      rw [hr] at hlog2
      have hlog2' : ∀ n ∈ log2, n.tag = toLowerStr n.tag := hlog2
      cases r1 with
      | none =>
        have heq : (parseAllLF G (fuel + 1) evs log).2 = log2 := by
          simp only [parseAllLF, hr]
        rw [heq]
        exact hlog2'
      | some t =>
        have heq : (parseAllLF G (fuel + 1) evs log).2
            = (parseAllLF G fuel rest log2).2 := by
          simp only [parseAllLF, hr]
        rw [heq]
        exact ih rest log2 hlog2'

/-- On a balanced stream with the stack aligned to the open elements,
every node the invocation passes to `populate` has a non-item tag (an
item node can only be closed by an item end tag, on which the loop
breaks before popping), and the invocation stops either at the very
end of the input or again at a mid-document state. -/
theorem nextGoL_balanced {T : Type} (G : GradualRssItem T) (cs : XmlForest)
    (ctx : List (String × XmlForest)) (stack : List XmlNode) (p : Option T)
    (log : List XmlNode) (hal : aligned stack ctx)
    (hlog : ∀ n ∈ log, ¬ n.tag = toLowerStr ("item")) :
    (∀ n ∈ (nextGoL G (restEvents cs ctx) stack p log).2.2,
        ¬ n.tag = toLowerStr ("item")) ∧
    ((nextGoL G (restEvents cs ctx) stack p log).2.1 = [] ∨
      ∃ cs2 ctx2, (nextGoL G (restEvents cs ctx) stack p log).2.1
        = restEvents cs2 ctx2) := by
  cases cs with
  | nil =>
    cases ctx with
    | nil =>
      have hre : restEvents XmlForest.nil ([] : List (String × XmlForest))
          = [Event.eof] := by
        simp [restEvents, eventsOfForest]
      rw [hre]
      exact ⟨hlog, Or.inl rfl⟩
    | cons q ctx' =>
      have hre : restEvents XmlForest.nil (q :: ctx')
          = Event.endTag q.1 :: restEvents q.2 ctx' := by
        simp [restEvents, eventsOfForest]
      rw [hre]
      by_cases hq : toLowerStr q.1 = toLowerStr ("item")
      · have hstep : nextGoL G (Event.endTag q.1 :: restEvents q.2 ctx') stack p log
            = (p, restEvents q.2 ctx', log) := by
          simp only [nextGoL, if_pos hq]
        rw [hstep]
        exact ⟨hlog, Or.inr ⟨q.2, ctx', rfl⟩⟩
      · cases stack with
        | nil =>
          have hstep : nextGoL G (Event.endTag q.1 :: restEvents q.2 ctx') [] p log
              = nextGoL G (restEvents q.2 ctx') [] p log := by
            simp only [nextGoL, if_neg hq]
          rw [hstep]
          exact nextGoL_balanced G q.2 ctx' [] p log trivial hlog
        | cons nd st' =>
          obtain ⟨hnd, hal'⟩ := hal
          cases p with
          | none =>
            have hstep : nextGoL G (Event.endTag q.1 :: restEvents q.2 ctx')
                  (nd :: st') none log
                = nextGoL G (restEvents q.2 ctx') st' none log := by
              simp only [nextGoL, if_neg hq]
            rw [hstep]
            exact nextGoL_balanced G q.2 ctx' st' none log hal' hlog
          | some r =>
            have hstep : nextGoL G (Event.endTag q.1 :: restEvents q.2 ctx')
                  (nd :: st') (some r) log
                = nextGoL G (restEvents q.2 ctx') st'
                    (some (G.populate r nd)) (log ++ [nd]) := by
              simp only [nextGoL, if_neg hq]
            rw [hstep]
            refine nextGoL_balanced G q.2 ctx' st' (some (G.populate r nd))
              (log ++ [nd]) hal' ?_
            intro n2 hn2
            rcases List.mem_append.mp hn2 with h1 | h2
            · exact hlog n2 h1
            · rw [List.mem_singleton.mp h2, hnd]
              exact hq
  | cons t ts =>
    cases t with
    | txt s =>
      have hre : restEvents (XmlForest.cons (Xml.txt s) ts) ctx
          = Event.text (some s) :: restEvents ts ctx := by
        rw [restEvents_cons]
        simp [eventsOf]
      rw [hre]
      cases stack with
      | nil =>
        show (∀ n ∈ (nextGoL G (restEvents ts ctx) [] p log).2.2,
            ¬ n.tag = toLowerStr ("item")) ∧
          ((nextGoL G (restEvents ts ctx) [] p log).2.1 = [] ∨
            ∃ cs2 ctx2, (nextGoL G (restEvents ts ctx) [] p log).2.1
              = restEvents cs2 ctx2)
        exact nextGoL_balanced G ts ctx [] p log trivial hlog
      | cons nd st' =>
        cases ctx with
        | nil => exact False.elim hal
        | cons q ctx' =>
          obtain ⟨hnd, hal'⟩ := hal
          show (∀ n ∈ (nextGoL G (restEvents ts (q :: ctx'))
              ({ nd with value := some s } :: st') p log).2.2,
              ¬ n.tag = toLowerStr ("item")) ∧
            ((nextGoL G (restEvents ts (q :: ctx'))
              ({ nd with value := some s } :: st') p log).2.1 = [] ∨
              ∃ cs2 ctx2, (nextGoL G (restEvents ts (q :: ctx'))
                ({ nd with value := some s } :: st') p log).2.1 = restEvents cs2 ctx2)
          exact nextGoL_balanced G ts (q :: ctx')
            ({ nd with value := some s } :: st') p log ⟨hnd, hal'⟩ hlog
    | cdat s =>
      have hre : restEvents (XmlForest.cons (Xml.cdat s) ts) ctx
          = Event.cdata (some s) :: restEvents ts ctx := by
        rw [restEvents_cons]
        simp [eventsOf]
      rw [hre]
      cases stack with
      | nil =>
        show (∀ n ∈ (nextGoL G (restEvents ts ctx) [] p log).2.2,
            ¬ n.tag = toLowerStr ("item")) ∧
          ((nextGoL G (restEvents ts ctx) [] p log).2.1 = [] ∨
            ∃ cs2 ctx2, (nextGoL G (restEvents ts ctx) [] p log).2.1
              = restEvents cs2 ctx2)
        exact nextGoL_balanced G ts ctx [] p log trivial hlog
      | cons nd st' =>
        cases ctx with
        | nil => exact False.elim hal
        | cons q ctx' =>
          obtain ⟨hnd, hal'⟩ := hal
          show (∀ n ∈ (nextGoL G (restEvents ts (q :: ctx'))
              ({ nd with cdata := some s } :: st') p log).2.2,
              ¬ n.tag = toLowerStr ("item")) ∧
            ((nextGoL G (restEvents ts (q :: ctx'))
              ({ nd with cdata := some s } :: st') p log).2.1 = [] ∨
              ∃ cs2 ctx2, (nextGoL G (restEvents ts (q :: ctx'))
                ({ nd with cdata := some s } :: st') p log).2.1 = restEvents cs2 ctx2)
          exact nextGoL_balanced G ts (q :: ctx')
            ({ nd with cdata := some s } :: st') p log ⟨hnd, hal'⟩ hlog
    | elem tag ccs =>
      have hre2 : restEvents (XmlForest.cons (Xml.elem tag ccs) ts) ctx
          = Event.start tag :: restEvents ccs ((tag, ts) :: ctx) := by
        rw [restEvents_cons]
        simp [eventsOf, restEvents, List.append_assoc]
      rw [hre2]
      show (∀ n ∈ (nextGoL G (restEvents ccs ((tag, ts) :: ctx))
          (XmlNode.mk (toLowerStr tag) none none :: stack)
          (if toLowerStr tag = toLowerStr ("item") then some G.init else p) log).2.2,
          ¬ n.tag = toLowerStr ("item")) ∧
        ((nextGoL G (restEvents ccs ((tag, ts) :: ctx))
          (XmlNode.mk (toLowerStr tag) none none :: stack)
          (if toLowerStr tag = toLowerStr ("item") then some G.init else p) log).2.1 = [] ∨
          ∃ cs2 ctx2, (nextGoL G (restEvents ccs ((tag, ts) :: ctx))
            (XmlNode.mk (toLowerStr tag) none none :: stack)
            (if toLowerStr tag = toLowerStr ("item") then some G.init else p) log).2.1
            = restEvents cs2 ctx2)
      exact nextGoL_balanced G ccs ((tag, ts) :: ctx)
        (XmlNode.mk (toLowerStr tag) none none :: stack)
        (if toLowerStr tag = toLowerStr ("item") then some G.init else p) log
        ⟨rfl, hal⟩ hlog
termination_by msr cs ctx
decreasing_by
  all_goals subst_vars
  all_goals first
    | exact msr_pop _ _
    | exact msr_tail _ _ _
    | exact msr_descend _ _ _ _

theorem parseAllLF_nil {T : Type} (G : GradualRssItem T) (fuel : Nat)
    (log : List XmlNode) : (parseAllLF G fuel [] log).2 = log := by
  cases fuel with
  | zero => rfl
  | succ fuel => rfl

theorem parseAllLF_notItem {T : Type} (G : GradualRssItem T) :
    ∀ (fuel : Nat) (cs : XmlForest) (ctx : List (String × XmlForest))
      (log : List XmlNode),
      (∀ n ∈ log, ¬ n.tag = toLowerStr ("item")) →
      ∀ n ∈ (parseAllLF G fuel (restEvents cs ctx) log).2,
        ¬ n.tag = toLowerStr ("item") := by
  intro fuel
  induction fuel with
  | zero => intro cs ctx log hlog; exact hlog
  | succ fuel ih =>
    intro cs ctx log hlog
    have hb := nextGoL_balanced G cs ctx [] none log trivial hlog
    cases hr : nextGoL G (restEvents cs ctx) [] none log with
    | mk r1 rl =>
      obtain ⟨rest, log2⟩ := rl
      rw [hr] at hb
      obtain ⟨hlog2, hrest⟩ := hb
      have hlog2' : ∀ n ∈ log2, ¬ n.tag = toLowerStr ("item") := hlog2
      cases r1 with
      | none =>
        have heq : (parseAllLF G (fuel + 1) (restEvents cs ctx) log).2 = log2 := by
          simp only [parseAllLF, hr]
        rw [heq]
        exact hlog2'
      | some t =>
        have heq : (parseAllLF G (fuel + 1) (restEvents cs ctx) log).2
            = (parseAllLF G fuel rest log2).2 := by
          simp only [parseAllLF, hr]
        rw [heq]
        rcases hrest with h0 | ⟨cs2, ctx2, h2⟩
        · have h0' : rest = [] := h0
          rw [h0', parseAllLF_nil]
          exact hlog2'
        · have h2' : rest = restEvents cs2 ctx2 := h2
          rw [h2']
          exact ih cs2 ctx2 log2 hlog2'

/-- C10 counterexample: on the unbalanced input
`<ITEM></b></item>` the stray closing tag `b` pops the item's own node
and folds it into the record, so `populate` receives a node whose tag
IS the string "item" — the claim's "never item" fails (only the
lowercasing half survives unbalanced input). -/
theorem c10_counterexample :
    (RssParser.next collectG ⟨[Event.start ("ITEM"), Event.endTag ("b"),
        Event.endTag ("item")]⟩).1 = some [XmlNode.mk ("item") none none] ∧
    (XmlNode.mk ("item") none none).tag = ("item") := by
  constructor
  · decide
  · decide

/-- C10 amended: every node passed to the capability's fold/populate
operation — observed through the ghost log, so including folds into a
record that a later nested item start discards — has a fully
lowercased tag name, on any input whatsoever; and on every well-formed
(balanced) document, nested item elements allowed, that tag is never
the string "item": the loop breaks on an item end tag before any pop,
so only unbalanced input can fold the item node itself. -/
theorem c10_amended :
    (∀ (T : Type) (G : GradualRssItem T) (evs : List Event),
      ∀ n ∈ (parseAllL G ⟨evs⟩).2, n.tag = toLowerStr n.tag) ∧
    (∀ (T : Type) (G : GradualRssItem T) (d : XmlForest),
      ∀ n ∈ (parseAllL G ⟨eventsOfForest d ++ [Event.eof]⟩).2,
        ¬ n.tag = toLowerStr ("item")) := by
  constructor
  · intro T G evs n hn
    exact parseAllLF_tags_lower G (evs.length + 1) evs []
      (fun n2 hn2 => absurd hn2 (List.not_mem_nil n2)) n hn
  · intro T G d n hn
    exact parseAllLF_notItem G ((eventsOfForest d ++ [Event.eof]).length + 1) d [] []
      (fun n2 hn2 => absurd hn2 (List.not_mem_nil n2)) n hn

/-- C10 witness: the lowercase half at a stream where the logged node
was folded into a record that a nested item start then discarded (so
it appears in no returned record, only in the log), and the never-item
half at the title node logged for the sample feed. -/
theorem c10_witness :
    (XmlNode.mk ("a") none none).tag = toLowerStr (XmlNode.mk ("a") none none).tag ∧
    ¬ (XmlNode.mk ("title") (some ("First Item")) none).tag = toLowerStr ("item") :=
  ⟨c10_amended.1 (List XmlNode) collectG
      [Event.start ("ITEM"), Event.start ("A"), Event.endTag ("a"),
        Event.start ("ITEM"), Event.endTag ("item")]
      (XmlNode.mk ("a") none none) (by decide),
    c10_amended.2 (List XmlNode) collectG sampleDoc
      (XmlNode.mk ("title") (some ("First Item")) none) (by decide)⟩
